import Mathlib

/-!
A shallow embedding of the core of the AGameOfLLMs contest engine
(src/backend/models.py, src/backend/contest_engine.py, src/backend/sandbox.py),
together with proofs of the testable properties stated in the specification.

Modelling conventions:
* Python strings are `String`, or `List Char` for the character-level algorithms
  (submission extraction, test-output parsing, reward extraction).
* Python dicts keyed by strings are association lists updated in place: the
  first occurrence of a key is replaced, new keys are appended at the end,
  matching insertion-ordered Python dict semantics.
* A Python method that mutates `self` and may `raise` is a function returning
  the new state paired with `Option String`: the error message of the raised
  exception, or `none` when no exception is raised.  On an exception the state
  component is the state at the moment of the raise (in all modelled methods
  the raise happens before any mutation).
* Wall-clock timestamps (`datetime.now()`) are external inputs, modelled as
  `Nat` parameters; fields that only ever hold such timestamps are `Option Nat`.
  Timestamp fields of transaction and ruleset-version records, which no claim
  mentions, are omitted.
* Calls into external collaborators (the Phi-4 reward model, the OS-level
  sandbox process, the agents' own code generation) are modelled as oracle
  inputs carrying the values those collaborators return.
-/

/-! ### Character and list utilities used by the string-processing code -/

/-- Python whitespace, as recognised by both `str.strip()` and the regex
class backslash-s on the ASCII inputs this program handles. -/
def isSp (c : Char) : Bool :=
  c == ' ' || c == '\t' || c == '\n' || c == '\r' || c == '\x0b' || c == '\x0c'

/-- Python word characters (the regex class backslash-w) for ASCII inputs:
letters, digits and underscore. -/
def isWord (c : Char) : Bool := c.isAlphanum || c == '_'

/-- Boolean list-of-characters asPrefix test (own recursion, so that all
equations are definitional). -/
def isPre : List Char → List Char → Bool
  | [], _ => true
  | _ :: _, [] => false
  | a :: as, b :: bs => a == b && isPre as bs

/-- Index of the first occurrence of `n` in `h`, scanning left to right,
like `str.find` / the start of the leftmost regex match of a literal. -/
def findSub (n : List Char) : List Char → Option Nat
  | [] => if n.isEmpty then some 0 else none
  | c :: cs => if isPre n (c :: cs) then some 0 else (findSub n cs).map (· + 1)

/-- Python's `needle in haystack` substring test. -/
def hasSub (n h : List Char) : Bool := (findSub n h).isSome

/-- Python `text.split(chr(10))`: always returns at least one (possibly
empty) piece. -/
def splitNl : List Char → List (List Char)
  | [] => [[]]
  | c :: cs =>
    if c == '\n' then [] :: splitNl cs
    else
      match splitNl cs with
      | [] => [[c]]
      | l :: ls => (c :: l) :: ls

/-- Python `chr(10).join(lines)`. -/
def joinNl : List (List Char) → List Char
  | [] => []
  | [l] => l
  | l :: ls => l ++ '\n' :: joinNl ls

/-- Python `text.strip()` on ASCII text: drop whitespace from both ends. -/
def trimL (l : List Char) : List Char :=
  ((l.dropWhile isSp).reverse.dropWhile isSp).reverse

/-- Python `int(...)` on a nonempty string of decimal digits. -/
def digitsToNat (l : List Char) : Nat :=
  l.foldl (fun n c => n * 10 + (c.toNat - 48)) 0

/-- Lower-case a character list, for the case-insensitive regex searches. -/
def toLowerL (l : List Char) : List Char := l.map Char.toLower

/-! ### The Bank ledger (src/backend/models.py, class `Bank`) -/

/-- One entry of `Bank._transaction_history`: the dict built in
`Bank._update_balance` (its wall-clock `timestamp` field is omitted). -/
structure Transaction where
  actor : String
  delta : Int
  old_balance : Int
  new_balance : Int
  reason : String
deriving DecidableEq

/-- The mutable state of a `Bank`: `_balances` (a dict) and
`_transaction_history` (a list). -/
structure Bank where
  balances : List (String × Int)
  transaction_history : List Transaction
deriving DecidableEq

/-- `Bank.__init__`: empty balances dict, empty history. -/
def Bank.empty : Bank := ⟨[], []⟩

/-- First-match association lookup, the semantics of a Python dict read. -/
def lookupBal : List (String × Int) → String → Option Int
  | [], _ => none
  | (k, v) :: rest, actor => if k = actor then some v else lookupBal rest actor

/-- In-place dict write `d[actor] = v`: replace the first binding of the key,
or append a new binding. -/
def setBal : List (String × Int) → String → Int → List (String × Int)
  | [], actor, v => [(actor, v)]
  | (k, w) :: rest, actor, v =>
    if k = actor then (actor, v) :: rest else (k, w) :: setBal rest actor v

/-- `Bank.get_balance`: `self._balances.get(actor, 0)`. -/
def Bank.get_balance (b : Bank) (actor : String) : Int :=
  (lookupBal b.balances actor).getD 0

/-- `Bank._update_balance` (leading underscore dropped): update the cached
balance and append one transaction record. -/
def Bank.update_balance (b : Bank) (actor : String) (delta : Int) (reason : String) : Bank :=
  let old_balance := b.get_balance actor
  let new_balance := old_balance + delta
  { balances := setBal b.balances actor new_balance,
    transaction_history :=
      b.transaction_history ++ [⟨actor, delta, old_balance, new_balance, reason⟩] }

/-- `Bank.deposit`: rejects a negative amount, otherwise delegates to
`_update_balance`. -/
def Bank.deposit (b : Bank) (actor : String) (amount : Int) (reason : String) :
    Bank × Option String :=
  if amount < 0 then (b, some "Deposit amount must be positive")
  else (b.update_balance actor amount reason, none)

/-- `Bank.withdraw`: rejects a negative amount, otherwise applies the
negated delta. -/
def Bank.withdraw (b : Bank) (actor : String) (amount : Int) (reason : String) :
    Bank × Option String :=
  if amount < 0 then (b, some "Withdrawal amount must be positive")
  else (b.update_balance actor (-amount) reason, none)

/-- `Bank.transfer`: validates the amount and the payer's balance before any
mutation, then performs the debit followed by the credit. -/
def Bank.transfer (b : Bank) (from_actor to_actor : String) (amount : Int) (reason : String) :
    Bank × Option String :=
  if amount ≤ 0 then (b, some "Transfer amount must be positive")
  else
    let from_balance := b.get_balance from_actor
    if from_balance < amount then
      (b, some ("Insufficient funds: " ++ from_actor ++ " has $" ++ toString from_balance ++
        ", needs $" ++ toString amount))
    else
      let b1 := b.update_balance from_actor (-amount) ("Transfer to " ++ to_actor ++ ": " ++ reason)
      (b1.update_balance to_actor amount ("Transfer from " ++ from_actor ++ ": " ++ reason), none)

/-- `Bank.adjust_balance`: delegates to `_update_balance` and then falls off
the end of the method body, so the Python call evaluates to `None`; the second
component records that returned value. -/
def Bank.adjust_balance (b : Bank) (actor : String) (delta : Int) (reason : String) :
    Bank × Option Int :=
  (b.update_balance actor delta reason, none)

/-- Stable-descending insertion used to model
`sorted(self._balances.items(), key=lambda x: x[1], reverse=True)`:
an element is placed before the first element with a smaller-or-equal
balance, so earlier (first-registered) actors precede later ones on ties. -/
def insertByBal (p : String × Int) : List (String × Int) → List (String × Int)
  | [] => [p]
  | q :: qs => if q.2 ≤ p.2 then p :: q :: qs else q :: insertByBal p qs

/-- `Bank.get_leaderboard`: all known actors with their balances, ordered by
descending balance. -/
def Bank.get_leaderboard (b : Bank) : List (String × Int) :=
  b.balances.foldr insertByBal []

/-- Sum of the recorded deltas of one actor's transactions: the fold of the
ledger history that the specification says the cached balance must equal. -/
def histSum (h : List Transaction) (actor : String) : Int :=
  ((h.filter fun t => t.actor == actor).map Transaction.delta).sum

/-- One call into the Bank's public write interface. -/
inductive BankOp where
  | deposit (actor : String) (amount : Int) (reason : String)
  | withdraw (actor : String) (amount : Int) (reason : String)
  | adjust (actor : String) (delta : Int) (reason : String)
  | transfer (from_actor to_actor : String) (amount : Int) (reason : String)
deriving DecidableEq

/-- Execute one write call against the bank.  A call that raises leaves the
bank exactly as it was (in the Python code every raise precedes every
mutation), which the pair encoding captures by projecting the state. -/
def applyOp (b : Bank) : BankOp → Bank
  | .deposit a amt r => (b.deposit a amt r).1
  | .withdraw a amt r => (b.withdraw a amt r).1
  | .adjust a d r => (b.adjust_balance a d r).1
  | .transfer f t amt r => (b.transfer f t amt r).1

/-- Run an arbitrary interleaving of write calls against a fresh bank. -/
def runOps (ops : List BankOp) : Bank := ops.foldl applyOp Bank.empty

/-! ### The Constitution (src/backend/models.py, class `Constitution`) -/

/-- One entry of `Constitution.history` (the wall-clock `timestamp` field is
omitted). -/
structure RulesetVersion where
  updated_by : String
  old_text : String
  new_text : String
deriving DecidableEq

/-- The mutable state of the `Constitution`: current text plus version
history.  (The YAML loading of the initial text is external input.) -/
structure Constitution where
  text : String
  history : List RulesetVersion
deriving DecidableEq

/-- `Constitution.query`: return the current text. -/
def Constitution.query (c : Constitution) : String := c.text

/-- `Constitution.update`: permission check first (raising leaves the state
untouched), then swap the text and append one version record whose
`old_text` is the text from before the call. -/
def Constitution.update (c : Constitution) (new_text by_ : String) :
    Constitution × Option String :=
  if by_ ≠ "PrincipleEvaluator" then
    (c, some "Only PrincipleEvaluator can modify the constitution")
  else
    ({ text := new_text, history := c.history ++ [⟨by_, c.text, new_text⟩] }, none)

/-! ### Test-output parsing (src/backend/sandbox.py, `CodeSandbox._parse_test_output`) -/

/-- Leftmost occurrence of a maximal digit run immediately followed by
`suffix`, returning the run's numeric value: the regex search for
digits-then-`suffix` used on summary lines. -/
def findNumBefore (suffix : List Char) : List Char → Option Nat
  | [] => none
  | c :: cs =>
    if c.isDigit then
      let rest := (c :: cs).dropWhile Char.isDigit
      if isPre suffix rest then some (digitsToNat ((c :: cs).takeWhile Char.isDigit))
      else findNumBefore suffix cs
    else findNumBefore suffix cs

/-- Scan of the output lines in `_parse_test_output`: the first line that
contains both "passed" and "failed" yields all three counts; otherwise the
first line containing "passed in" but not "failed" yields the passed count;
otherwise all counts stay zero. -/
def parseLines : List (List Char) → Nat × Nat × Nat
  | [] => (0, 0, 0)
  | l :: ls =>
    if hasSub "passed".data l && hasSub "failed".data l then
      ((findNumBefore " passed".data l).getD 0,
       (findNumBefore " failed".data l).getD 0,
       (findNumBefore " error".data l).getD 0)
    else if hasSub "passed in".data l && !hasSub "failed".data l then
      ((findNumBefore " passed".data l).getD 0, 0, 0)
    else parseLines ls

/-- Whether a line would be consumed by either branch of the summary-line
scan (a "recognizable summary line"). -/
def summaryLine (l : List Char) : Bool :=
  (hasSub "passed".data l && hasSub "failed".data l) ||
  (hasSub "passed in".data l && !hasSub "failed".data l)

/-- The sum `passed + failed + errors` computed by `_parse_test_output`. -/
def totalOf (pfe : Nat × Nat × Nat) : Nat := pfe.1 + pfe.2.1 + pfe.2.2

/-- `CodeSandbox._parse_test_output`: parse the counts from the captured
output and return the `(passed, total)` pair, defaulting to one failed test
when nothing was recognized. -/
def parse_test_output (output : List Char) : Nat × Nat :=
  if totalOf (parseLines (splitNl output)) = 0 then (0, 1)
  else ((parseLines (splitNl output)).1, totalOf (parseLines (splitNl output)))

/-! ### Reward extraction (src/backend/models.py,
`PrincipleEvaluator._extract_reward_from_response`) -/

/-- The clamp `max(-10000, min(10000, reward))` applied on every parsed
reward. -/
def clampReward (r : Int) : Int := max (-10000) (min 10000 r)

/-- Parse the regex tail `-?` digits (an optional minus sign followed by a
maximal digit run), returning the value and the rest of the input. -/
def parseSignedNumR : List Char → Option (Int × List Char)
  | '-' :: r =>
    if (r.headD 'x').isDigit then
      some (-(digitsToNat (r.takeWhile Char.isDigit) : Int), r.dropWhile Char.isDigit)
    else none
  | r =>
    if (r.headD 'x').isDigit then
      some ((digitsToNat (r.takeWhile Char.isDigit) : Int), r.dropWhile Char.isDigit)
    else none

/-- Parse the regex tail whitespace*, optional dollar sign, whitespace*,
then a signed number, as in the pattern after "Reward:". -/
def parseWsDollarNumR (t : List Char) : Option (Int × List Char) :=
  let t1 := t.dropWhile isSp
  let t2 :=
    match t1 with
    | '$' :: r => r.dropWhile isSp
    | _ => t1
  parseSignedNumR t2

/-- First pattern: case-insensitive search for "Reward:" followed by
whitespace, an optional dollar sign, and a signed integer. -/
def findReward1 : List Char → Option Int
  | [] => none
  | c :: cs =>
    if toLowerL ((c :: cs).take 7) == "reward:".data then
      match parseWsDollarNumR ((c :: cs).drop 7) with
      | some (v, _) => some v
      | none => findReward1 cs
    else findReward1 cs

/-- Second pattern: case-insensitive search for "Reward:" followed by
whitespace and a minus-dollar amount; the code strips the dollar sign and
keeps the minus, producing a negative value. -/
def findReward2 : List Char → Option Int
  | [] => none
  | c :: cs =>
    if toLowerL ((c :: cs).take 7) == "reward:".data then
      match ((c :: cs).drop 7).dropWhile isSp with
      | '-' :: '$' :: r =>
        if (r.headD 'x').isDigit then some (-(digitsToNat (r.takeWhile Char.isDigit) : Int))
        else findReward2 cs
      | _ => findReward2 cs
    else findReward2 cs

/-- Third pattern, `findall` over the alternation minus-dollar-digits or
dollar-optional-minus-digits: all non-overlapping matched strings, scanning
left to right.  The first argument is fuel (instantiated with the input
length), making the non-structural regex scan a structural recursion. -/
def dollarMatches : Nat → List Char → List (List Char)
  | 0, _ => []
  | _ + 1, [] => []
  | fuel + 1, c :: cs =>
    if c = '-' then
      if cs.headD 'x' = '$' ∧ ((cs.tail).headD 'x').isDigit then
        ('-' :: '$' :: (cs.tail).takeWhile Char.isDigit) ::
          dollarMatches fuel ((cs.tail).dropWhile Char.isDigit)
      else dollarMatches fuel cs
    else if c = '$' then
      if cs.headD 'x' = '-' then
        if ((cs.tail).headD 'x').isDigit then
          ('$' :: '-' :: (cs.tail).takeWhile Char.isDigit) ::
            dollarMatches fuel ((cs.tail).dropWhile Char.isDigit)
        else dollarMatches fuel cs
      else
        if (cs.headD 'x').isDigit then
          ('$' :: cs.takeWhile Char.isDigit) :: dollarMatches fuel (cs.dropWhile Char.isDigit)
        else dollarMatches fuel cs
    else dollarMatches fuel cs

/-- The sign handling applied to the last dollar match: strings starting
with minus-dollar or dollar-minus are negated, a plain dollar prefix is
stripped, and the final else branch mirrors the (unreachable) `replace`
fallback. -/
def dollarToInt : List Char → Int
  | '-' :: '$' :: r => -(digitsToNat r : Int)
  | '$' :: '-' :: r => -(digitsToNat r : Int)
  | '$' :: r => (digitsToNat r : Int)
  | r => (digitsToNat (r.filter fun c => c != '$') : Int)

/-- One attempted match of the fourth pattern at the current position:
one of the case-insensitive keywords "reward:", "amount:", "total:",
followed by the whitespace-dollar-number tail. -/
def tryKw (s : List Char) : Option (Int × List Char) :=
  if toLowerL (s.take 7) == "reward:".data then parseWsDollarNumR (s.drop 7)
  else if toLowerL (s.take 7) == "amount:".data then parseWsDollarNumR (s.drop 7)
  else if toLowerL (s.take 6) == "total:".data then parseWsDollarNumR (s.drop 6)
  else none

/-- Fourth pattern, `findall` of keyword-colon-number: the captured numbers
in order.  Fueled like `dollarMatches`. -/
def kwScan : Nat → List Char → List Int
  | 0, _ => []
  | _ + 1, [] => []
  | fuel + 1, c :: cs =>
    match tryKw (c :: cs) with
    | some (v, rest) => v :: kwScan fuel rest
    | none => kwScan fuel cs

/-- Fifth and sixth patterns, `findall` of an optional minus sign and a
digit run: all matched integers in order.  Fueled like `dollarMatches`. -/
def numMatches : Nat → List Char → List Int
  | 0, _ => []
  | _ + 1, [] => []
  | fuel + 1, c :: cs =>
    if c = '-' then
      if (cs.headD 'x').isDigit then
        (-(digitsToNat (cs.takeWhile Char.isDigit) : Int)) ::
          numMatches fuel (cs.dropWhile Char.isDigit)
      else numMatches fuel cs
    else if c.isDigit then
      ((digitsToNat ((c :: cs).takeWhile Char.isDigit) : Int)) ::
        numMatches fuel ((c :: cs).dropWhile Char.isDigit)
    else numMatches fuel cs

/-- Python `max(numbers, key=lambda x: abs(int(x)))`: the first element of
largest absolute value. -/
def firstMaxAbs : List Int → Int
  | [] => 0
  | x :: xs => xs.foldl (fun best y => if best.natAbs < y.natAbs then y else best) x

/-- `PrincipleEvaluator._extract_reward_from_response`: try the five regex
patterns in order, clamping every parsed value to the closed interval from
-10000 to 10000, and return 0 when the response contains no number at all. -/
def extract_reward_from_response (s : List Char) : Int :=
  match findReward1 s with
  | some r => clampReward r
  | none =>
  match findReward2 s with
  | some r => clampReward r
  | none =>
  match (dollarMatches s.length s).getLast? with
  | some m => clampReward (dollarToInt m)
  | none =>
  match (kwScan s.length s).getLast? with
  | some r => clampReward r
  | none =>
  match (numMatches ((splitNl s).getLastD []).length ((splitNl s).getLastD [])).getLast? with
  | some r => clampReward r
  | none =>
  match numMatches s.length s with
  | [] => 0
  | x :: xs => clampReward (firstMaxAbs (x :: xs))

/-! ### Submission extraction (src/backend/contest_engine.py,
`ContestEngine._extract_function_code`) -/

/-- The opening token of a markdown Python code fence. -/
def fenceOpenStr : List Char := "```python".data

/-- The closing token of a markdown code fence. -/
def fenceMark : List Char := "```".data

/-- The regex search for a fenced Python block under DOTALL with a lazy
body: the text between the first occurrence of the opening token and the
first occurrence of the closing token after it, whitespace-stripped (the
code applies `.strip()` to the captured group, which the surrounding
whitespace-stars already reduce to stripping).  No match when either token
is missing. -/
def pythonBlock (s : List Char) : Option (List Char) :=
  match findSub fenceOpenStr s with
  | none => none
  | some i =>
    let after := s.drop (i + 9)
    match findSub fenceMark after with
    | none => none
    | some j => some (trimL (after.take j))

/-- One attempted match of the stub-name regex at the current position:
the literal "def", at least one whitespace, a maximal word-character run
(the captured name), optional whitespace, and an opening parenthesis. -/
def matchDefAt : List Char → Option (List Char)
  | 'd' :: 'e' :: 'f' :: rest =>
    if (rest.takeWhile isSp).isEmpty then none
    else if ((rest.dropWhile isSp).takeWhile isWord).isEmpty then none
    else if (((rest.dropWhile isSp).dropWhile isWord).dropWhile isSp).headD 'x' = '(' then
      some ((rest.dropWhile isSp).takeWhile isWord)
    else none
  | _ => none

/-- Leftmost match of the stub-name regex. -/
def findDefName : List Char → Option (List Char)
  | [] => none
  | c :: cs =>
    match matchDefAt (c :: cs) with
    | some n => some n
    | none => findDefName cs

/-- The expected entry-point name: the captured group of the stub-name
regex, defaulting to "solve". -/
def functionNameOf (stub : List Char) : List Char :=
  (findDefName stub).getD "solve".data

/-- The search needle "def " followed by the function name. -/
def defNeedle (fname : List Char) : List Char := 'd' :: 'e' :: 'f' :: ' ' :: fname

/-- Python's `line.strip() and not line.startswith(' ') and not
line.startswith(chr(9))` break test, negated: a line that the function-body
scan keeps (blank after stripping, or indented). -/
def isCont (l : List Char) : Bool :=
  (trimL l).isEmpty || l.head? == some ' ' || l.head? == some '\t'

/-- The line scan of the second extraction path: collect from the first
line containing the needle until the first subsequent non-blank unindented
line (lines containing the needle are always kept and keep the scan alive). -/
def collectFn (needle : List Char) : List (List Char) → Bool → List (List Char)
  | [], _ => []
  | l :: ls, inF =>
    if hasSub needle l then l :: collectFn needle ls true
    else if inF then
      if isCont l then l :: collectFn needle ls true else []
    else collectFn needle ls false

/-- The "code-like line" filter of the third extraction path: stripped,
nonempty, not ending in a colon, not a comment, and containing one of the
code markers. -/
def codeLines (lines : List (List Char)) : List (List Char) :=
  (lines.map trimL).filter fun t =>
    !t.isEmpty && !(t.getLast? == some ':') && !(t.head? == some '#') &&
      (hasSub "=".data t || hasSub "return".data t || hasSub "def ".data t ||
       hasSub "if ".data t || hasSub "for ".data t)

/-- Four-space indentation prefix. -/
def indent4 (l : List Char) : List Char := ' ' :: ' ' :: ' ' :: ' ' :: l

/-- The wrapper built by the third extraction path: a def-header line, a
newline, four spaces, then the four-space-indented code lines joined by
newlines (so the first kept line ends up indented eight spaces). -/
def wrapCode (fname : List Char) (cls : List (List Char)) : List Char :=
  defNeedle fname ++ "():".data ++ '\n' :: indent4 (joinNl (cls.map indent4))

/-- The ultimate fallback: an empty function. -/
def emptyFn (fname : List Char) : List Char :=
  defNeedle fname ++ "():".data ++ '\n' :: indent4 "pass".data

/-- The extraction paths that operate on the raw lines (everything after
the markdown-block attempt): the function-line scan, then the code-like-line
wrapper, then the empty-function fallback. -/
def extractBody (fname : List Char) (s : List Char) : List Char :=
  if (collectFn (defNeedle fname) (splitNl s) false).isEmpty then
    if (codeLines (splitNl s)).isEmpty then emptyFn fname
    else wrapCode fname (codeLines (splitNl s))
  else joinNl (collectFn (defNeedle fname) (splitNl s) false)

/-- `ContestEngine._extract_function_code`: derive the entry-point name
from the stub, return a fenced Python block when it contains the function
definition, otherwise fall through to the line-based paths on the original
response. -/
def extract_function_code (stub s : List Char) : List Char :=
  match pythonBlock s with
  | some content =>
    if hasSub (defNeedle (functionNameOf stub)) content then content
    else extractBody (functionNameOf stub) s
  | none => extractBody (functionNameOf stub) s

/-- String-level wrapper of the extraction, in the shape the engine calls
it: raw response text and stub code in, executable code text out. -/
def extractFn (stub s : String) : String :=
  String.mk (extract_function_code stub.data s.data)

/-! ### The contest engine (src/backend/contest_engine.py) -/

/-- `CodingProblem` (src/backend/models.py). -/
structure CodingProblem where
  id : String
  stub_code : String
  tests : String
  timeout_s : Nat
  mem_limit_mb : Nat
  description : Option String
  released_at : Option Nat
deriving DecidableEq

/-- `ContestState` (src/backend/models.py).  Its `problems` mirror of the
engine's problem list, which no modelled method reads, is omitted. -/
structure ContestState where
  current_problem_index : Nat
  is_active : Bool
  start_time : Option Nat
  participants : List String
deriving DecidableEq

/-- In-place write into a string-to-string dict. -/
def setStr : List (String × String) → String → String → List (String × String)
  | [], k, v => [(k, v)]
  | (a, b) :: r, k, v => if a = k then (k, v) :: r else (a, b) :: setStr r k v

/-- In-place write into the engine's nested submissions dict
(problem id to developer name to code), creating the inner dict on first
use as `run`/`evaluate` do. -/
def setSubs : List (String × List (String × String)) → String → String → String →
    List (String × List (String × String))
  | [], pid, dev, code => [(pid, [(dev, code)])]
  | (p, m) :: r, pid, dev, code =>
    if p = pid then (pid, setStr m dev code) :: r else (p, m) :: setSubs r pid dev code

/-- The mutable state of `ContestEngine` relevant to the claims: the
constitution, the bank, the contest state, the problem list, the registered
developer names (dict keys in insertion order) and the submissions store. -/
structure Engine where
  constitution : Constitution
  bank : Bank
  state : ContestState
  problems : List CodingProblem
  developers : List String
  submissions : List (String × List (String × String))
deriving DecidableEq

/-- `ContestEngine.register_developer`: record the developer, post the
zero-amount registration transaction, and add the participant. -/
def register_developer (e : Engine) (name : String) : Engine :=
  { e with
    developers := e.developers ++ [name],
    bank := (e.bank.adjust_balance name 0 "Initial registration").1,
    state := { e.state with participants := e.state.participants ++ [name] } }

/-- `ContestEngine.start_contest`: raise when already active or when no
problems are loaded (no check of the registered agents), otherwise activate
the contest at problem index 0 with the start timestamp. -/
def start_contest (e : Engine) (now : Nat) : Engine × Option String :=
  if e.state.is_active then (e, some "Contest is already active")
  else if e.problems.isEmpty then (e, some "No problems loaded")
  else
    ({ e with
        state :=
          { e.state with is_active := true, start_time := some now, current_problem_index := 0 } },
      none)

/-- `ContestEngine.get_current_problem`: the problem at the current index,
or `None` when the contest is inactive or the index has run past the list. -/
def get_current_problem (e : Engine) : Option CodingProblem :=
  if e.state.is_active ∧ e.state.current_problem_index < e.problems.length then
    e.problems[e.state.current_problem_index]?
  else none

/-- One submission as the evaluator receives it in `all_submissions`,
together with the reward the external Phi-4 reward policy (or its fallback)
returns for it in `_calculate_individual_reward`.  The developer response
time, which only flows into logs and the oracle-abstracted reward, is
omitted. -/
structure SubOracle where
  name : String
  full_response : String
  reward : Int
deriving DecidableEq

/-- `PrincipleEvaluator.evaluate_submissions_simple`, restricted to its
effect on the engine state: extract every submission and store it under the
problem id, post each developer's reward, then post the evaluator's own
fixed 1000 evaluation fee.  Sandbox execution and the reward computation
are external calls whose results arrive through the oracle. -/
def evaluate_submissions_simple (peName : String) (truth : String) (problem : CodingProblem)
    (bank : Bank) (subs : List (String × List (String × String)))
    (all_submissions : List SubOracle) :
    Bank × List (String × List (String × String)) :=
  (((all_submissions.foldl
      (fun b s => (b.adjust_balance s.name s.reward ("Problem " ++ problem.id ++ " submission")).1)
      bank).adjust_balance peName 1000 ("Problem " ++ problem.id ++ " evaluation")).1,
   all_submissions.foldl
     (fun acc s => setSubs acc problem.id s.name (extractFn problem.stub_code s.full_response))
     subs)

/-- One entry of the submissions dict passed to the older
`evaluate_submissions`, with the reward the external reward policy returns
for it in `_calculate_reward_with_all_context`. -/
structure SubEval where
  name : String
  code : String
  reward : Int
deriving DecidableEq

/-- `PrincipleEvaluator.evaluate_submissions`, restricted to its effect on
the bank: post each developer's reward, then post the evaluator's own fixed
1000 evaluation fee. -/
def evaluate_submissions (peName : String) (truth : String) (submissions : List SubEval)
    (problem : CodingProblem) (bank : Bank) : Bank :=
  ((submissions.foldl
      (fun b s => (b.adjust_balance s.name s.reward ("Problem " ++ problem.id ++ " submission")).1)
      bank).adjust_balance peName 1000 ("Problem " ++ problem.id ++ " evaluation")).1

/-- The external inputs of one round: the wall clock at problem release,
the solicited submissions with their oracle rewards (developers whose
`query` raised are already absent, as the engine catches per-agent
exceptions), and the constitution text the evaluator elects to install in
`check_and_update_constitution`, if any. -/
structure RoundOracle where
  now : Nat
  subs : List SubOracle
  new_constitution : Option String
deriving DecidableEq

/-- `ContestEngine.run_contest_round`: return unchanged when there is no
current problem; otherwise stamp the release time, run the evaluation,
optionally update the constitution, advance the problem index, and end the
contest when the index reaches the problem count. -/
def run_contest_round (e : Engine) (o : RoundOracle) : Engine :=
  match get_current_problem e with
  | none => e
  | some p =>
    let p' := { p with released_at := some o.now }
    let ev := evaluate_submissions_simple "PrincipleEvaluator" p.tests p' e.bank e.submissions o.subs
    let e' : Engine :=
      { e with
        problems := e.problems.set e.state.current_problem_index p',
        bank := ev.1,
        submissions := ev.2,
        constitution :=
          match o.new_constitution with
          | none => e.constitution
          | some t => (e.constitution.update t "PrincipleEvaluator").1,
        state := { e.state with current_problem_index := e.state.current_problem_index + 1 } }
    if e'.problems.length ≤ e'.state.current_problem_index then
      { e' with state := { e'.state with is_active := false } }
    else e'

/-- A sequence of rounds. -/
def runRounds (e : Engine) (os : List RoundOracle) : Engine :=
  os.foldl run_contest_round e

/-! ### Concrete data for witnesses and counterexamples -/

/-- A small problem with the standard `solve` stub. -/
def sampleProblem : CodingProblem :=
  ⟨"001", "def solve():\n    pass", "def test_solve():\n    assert True", 1, 256,
    some "Write a function that adds two numbers", none⟩

/-- An idle engine with one problem and no registered developers. -/
def idleEngine : Engine :=
  ⟨⟨"be fair", []⟩, Bank.empty, ⟨0, false, none, []⟩, [sampleProblem], [], []⟩

/-- An idle engine with one problem and one registered developer. -/
def oneDevEngine : Engine := register_developer idleEngine "Alice"

/-- A round oracle in which the one developer answers with a valid
function and is rewarded 500. -/
def sampleOracle : RoundOracle :=
  ⟨42, [⟨"Alice", "def solve():\n    return 1", 500⟩], none⟩

/-! ### Ledger lemmas -/

theorem lookupBal_setBal (l : List (String × Int)) (x : String) (v : Int) (a : String) :
    lookupBal (setBal l x v) a = if a = x then some v else lookupBal l a := by
  induction l with
  | nil =>
    by_cases h : a = x
    · subst h; simp [setBal, lookupBal]
    · simp [setBal, lookupBal, h, Ne.symm h]
  | cons p rest ih =>
    obtain ⟨k, w⟩ := p
    by_cases hk : k = x
    · subst hk
      by_cases h : a = k
      · subst h; simp [setBal, lookupBal]
      · simp [setBal, lookupBal, h, Ne.symm h]
    · by_cases h : k = a
      · subst h
        simp [setBal, lookupBal, hk]
      · simp [setBal, lookupBal, hk, h, ih]

theorem get_balance_update (b : Bank) (x : String) (d : Int) (r : String) (a : String) :
    (b.update_balance x d r).get_balance a =
      if a = x then b.get_balance a + d else b.get_balance a := by
  unfold Bank.update_balance Bank.get_balance
  simp only [lookupBal_setBal]
  by_cases h : a = x <;> simp [h]

theorem history_update (b : Bank) (x : String) (d : Int) (r : String) :
    (b.update_balance x d r).transaction_history =
      b.transaction_history ++ [⟨x, d, b.get_balance x, b.get_balance x + d, r⟩] := rfl

theorem histSum_append (h : List Transaction) (t : Transaction) (a : String) :
    histSum (h ++ [t]) a = histSum h a + if t.actor = a then t.delta else 0 := by
  unfold histSum
  rw [List.filter_append]
  by_cases ht : t.actor = a <;> simp [ht]

theorem update_balance_keeps_inv (b : Bank) (x : String) (d : Int) (r : String)
    (hb : ∀ a, b.get_balance a = histSum b.transaction_history a) :
    ∀ a, (b.update_balance x d r).get_balance a =
      histSum (b.update_balance x d r).transaction_history a := by
  intro a
  rw [get_balance_update, history_update, histSum_append]
  by_cases h : a = x
  · subst h; simp [hb a]
  · simp [h, Ne.symm h, hb a]

theorem applyOp_keeps_inv (b : Bank) (op : BankOp)
    (hb : ∀ a, b.get_balance a = histSum b.transaction_history a) :
    ∀ a, (applyOp b op).get_balance a = histSum (applyOp b op).transaction_history a := by
  cases op with
  | deposit x amt r =>
    intro a
    simp only [applyOp, Bank.deposit]
    split
    · exact hb a
    · exact update_balance_keeps_inv b x amt r hb a
  | withdraw x amt r =>
    intro a
    simp only [applyOp, Bank.withdraw]
    split
    · exact hb a
    · exact update_balance_keeps_inv b x (-amt) r hb a
  | adjust x d r =>
    intro a
    simp only [applyOp, Bank.adjust_balance]
    exact update_balance_keeps_inv b x d r hb a
  | transfer f t amt r =>
    intro a
    simp only [applyOp, Bank.transfer]
    split
    · exact hb a
    · split
      · exact hb a
      · exact update_balance_keeps_inv _ t amt _ (update_balance_keeps_inv b f (-amt) _ hb) a

theorem foldl_keeps_inv (ops : List BankOp) :
    ∀ b : Bank, (∀ a, b.get_balance a = histSum b.transaction_history a) →
      ∀ a, (ops.foldl applyOp b).get_balance a =
        histSum (ops.foldl applyOp b).transaction_history a := by
  induction ops with
  | nil => intro b hb; exact hb
  | cons op ops ih =>
    intro b hb
    exact ih (applyOp b op) (applyOp_keeps_inv b op hb)

/-- Claim C1: for every sequence of deposit, withdraw, adjust_balance and
transfer calls and every actor, `Bank.get_balance` equals the sum of the
deltas of that actor's transactions in the recorded history (the cached
balance dict never drifts from the fold of the history), and the balance of
an actor with no transactions is 0. -/
theorem c1_ledger_invariant (ops : List BankOp) (actor : String) :
    (runOps ops).get_balance actor = histSum (runOps ops).transaction_history actor ∧
    ((runOps ops).transaction_history.filter (fun t => t.actor == actor) = [] →
      (runOps ops).get_balance actor = 0) := by
  unfold runOps
  have hmain := foldl_keeps_inv ops Bank.empty (fun a => rfl) actor
  refine ⟨hmain, fun hf => ?_⟩
  rw [hmain]
  unfold histSum
  rw [hf]
  rfl

/-- Witness for C1 at a concrete call sequence. -/
theorem c1_ledger_invariant_witness :
    (runOps [.deposit "a" 5 "seed", .transfer "a" "b" 3 "gift"]).get_balance "a" =
      histSum (runOps [.deposit "a" 5 "seed", .transfer "a" "b" 3 "gift"]).transaction_history "a" ∧
    (runOps [.deposit "a" 5 "seed", .transfer "a" "b" 3 "gift"]).get_balance "zed" = 0 := by
  refine ⟨(c1_ledger_invariant [.deposit "a" 5 "seed", .transfer "a" "b" 3 "gift"] "a").1, ?_⟩
  exact (c1_ledger_invariant [.deposit "a" 5 "seed", .transfer "a" "b" 3 "gift"] "zed").2 (by decide)

/-- Counterexample to claim C3 as stated: `adjust_balance` does append the
transaction and update the cached balance, but the Python method body has no
return statement, so the call returns `None`, not the new balance. -/
theorem c3_adjust_counterexample :
    (Bank.empty.adjust_balance "alice" 5 "bonus").2 = none ∧
    (Bank.empty.adjust_balance "alice" 5 "bonus").1.get_balance "alice" = 5 ∧
    (Bank.empty.adjust_balance "alice" 5 "bonus").2 ≠
      some ((Bank.empty.adjust_balance "alice" 5 "bonus").1.get_balance "alice") := by
  decide

/-- Claim C3, amended: for every actor, delta (positive, zero or negative)
and reason, `adjust_balance` appends exactly one Transaction and updates the
actor's cached balance to its previous balance plus the delta; it never
raises — in particular not when the resulting balance is negative — but the
call itself returns `None` rather than the new balance. -/
theorem c3_adjust_contract (b : Bank) (actor : String) (delta : Int) (reason : String) :
    (b.adjust_balance actor delta reason).1.transaction_history =
      b.transaction_history ++
        [⟨actor, delta, b.get_balance actor, b.get_balance actor + delta, reason⟩] ∧
    (b.adjust_balance actor delta reason).1.get_balance actor = b.get_balance actor + delta ∧
    (b.adjust_balance actor delta reason).2 = none := by
  refine ⟨rfl, ?_, rfl⟩
  have h := get_balance_update b actor delta reason actor
  simpa using h

/-- Claim C4: `Constitution.update` raises a permission error and leaves the
text and history unchanged whenever the author is not the single designated
rule-authoring role "PrincipleEvaluator"; for that role it appends exactly
one RulesetVersion whose `old_text` is the text `query` returned immediately
before the call, and replaces the current text. -/
theorem c4_constitution_update (c : Constitution) (new_text by_ : String) :
    (by_ ≠ "PrincipleEvaluator" →
      c.update new_text by_ = (c, some "Only PrincipleEvaluator can modify the constitution")) ∧
    (by_ = "PrincipleEvaluator" →
      c.update new_text by_ =
        ({ text := new_text, history := c.history ++ [⟨by_, c.query, new_text⟩] }, none)) := by
  constructor
  · intro h
    simp [Constitution.update, h]
  · intro h
    simp [Constitution.update, Constitution.query, h]

/-- Witness for C4 at a concrete constitution, for both an unauthorized and
the authorized author. -/
theorem c4_constitution_update_witness :
    (⟨"old rules", []⟩ : Constitution).update "new rules" "Mallory" =
      (⟨"old rules", []⟩, some "Only PrincipleEvaluator can modify the constitution") ∧
    (⟨"old rules", []⟩ : Constitution).update "new rules" "PrincipleEvaluator" =
      (⟨"new rules", [⟨"PrincipleEvaluator", "old rules", "new rules"⟩]⟩, none) := by
  have h1 := (c4_constitution_update ⟨"old rules", []⟩ "new rules" "Mallory").1 (by decide)
  have h2 := (c4_constitution_update ⟨"old rules", []⟩ "new rules" "PrincipleEvaluator").2 rfl
  refine ⟨h1, ?_⟩
  rw [h2]
  rfl

/-- Claim C6: whenever `transfer(a, b, amount)` is called with a's current
balance strictly below the amount, the call fails and leaves the balances
and the transaction history exactly as they were (no partial debit or
credit is recorded). -/
theorem c6_transfer_atomicity (b : Bank) (a c : String) (amount : Int) (reason : String)
    (h : b.get_balance a < amount) :
    (b.transfer a c amount reason).1 = b ∧ ((b.transfer a c amount reason).2).isSome = true := by
  unfold Bank.transfer
  by_cases h0 : amount ≤ 0
  · simp [h0]
  · simp [h0, h]

/-- Witness for C6 at a concrete underfunded transfer. -/
theorem c6_transfer_atomicity_witness :
    (Bank.empty.deposit "alice" 2 "seed").1.get_balance "alice" < 5 ∧
    ((Bank.empty.deposit "alice" 2 "seed").1.transfer "alice" "bob" 5 "x").1 =
      (Bank.empty.deposit "alice" 2 "seed").1 ∧
    (((Bank.empty.deposit "alice" 2 "seed").1.transfer "alice" "bob" 5 "x").2).isSome = true := by
  have h := c6_transfer_atomicity (Bank.empty.deposit "alice" 2 "seed").1 "alice" "bob" 5 "x"
    (by decide)
  exact ⟨by decide, h.1, h.2⟩

/-! ### Test-output parsing lemmas -/

theorem parseLines_no_summary (L : List (List Char)) (h : ∀ l ∈ L, summaryLine l = false) :
    parseLines L = (0, 0, 0) := by
  induction L with
  | nil => rfl
  | cons l ls ih =>
    have hl := h l (List.mem_cons_self l ls)
    unfold summaryLine at hl
    rw [Bool.or_eq_false_iff] at hl
    unfold parseLines
    rw [hl.1, hl.2]
    simp only [if_false, Bool.false_eq_true]
    exact ih fun x hx => h x (List.mem_cons_of_mem l hx)

/-- Claim C7: for every captured harness output, `_parse_test_output`
returns a pair whose total is at least 1, and when no recognizable
passed/failed/errored summary line occurs in the output it returns exactly
(0, 1): one test that failed, never a silent success. -/
theorem c7_parse_test_output (output : String) :
    1 ≤ (parse_test_output output.data).2 ∧
    ((∀ l ∈ splitNl output.data, summaryLine l = false) →
      parse_test_output output.data = (0, 1)) := by
  constructor
  · unfold parse_test_output
    split
    · exact le_refl 1
    · rename_i htot
      exact Nat.pos_of_ne_zero htot
  · intro h
    unfold parse_test_output
    rw [parseLines_no_summary _ h]
    rfl

/-- Witness for C7 at a concrete unrecognizable output. -/
theorem c7_parse_test_output_witness :
    1 ≤ (parse_test_output "Traceback: boom".data).2 ∧
    parse_test_output "Traceback: boom".data = (0, 1) := by
  have h := c7_parse_test_output "Traceback: boom"
  exact ⟨h.1, h.2 (by decide)⟩

/-- Counterexample to claim C5 as stated: `start_contest` never checks the
registered agents, so with zero registered agents, one loaded problem and an
idle state it succeeds instead of raising. -/
theorem c5_start_counterexample :
    idleEngine.developers = [] ∧ idleEngine.state.participants = [] ∧
    idleEngine.state.is_active = false ∧ idleEngine.problems ≠ [] ∧
    (start_contest idleEngine 3).2 = none ∧
    (start_contest idleEngine 3).1.state.is_active = true := by
  refine ⟨rfl, rfl, rfl, by decide, rfl, rfl⟩

/-- Claim C5, amended: `start_contest` raises (leaving the state unchanged)
exactly when the contest is already active or when no problems are loaded —
zero registered agents is not checked and does not prevent the start;
otherwise it activates the contest, sets the start timestamp and resets the
current problem index to 0. -/
theorem c5_start_contest (e : Engine) (now : Nat) :
    (e.state.is_active = true → start_contest e now = (e, some "Contest is already active")) ∧
    (e.state.is_active = false → e.problems = [] →
      start_contest e now = (e, some "No problems loaded")) ∧
    (e.state.is_active = false → e.problems ≠ [] →
      start_contest e now =
        ({ e with
            state :=
              { e.state with
                  is_active := true, start_time := some now,
                  current_problem_index := 0 } }, none)) := by
  refine ⟨fun h => ?_, fun h hp => ?_, fun h hp => ?_⟩
  · simp [start_contest, h]
  · simp [start_contest, h, hp]
  · simp [start_contest, h, List.isEmpty_iff, hp]

/-- Witness for C5 at a concrete engine: a fresh start succeeds, a second
start of the already-active contest raises. -/
theorem c5_start_contest_witness :
    start_contest idleEngine 3 =
      ({ idleEngine with
          state :=
            { idleEngine.state with
                is_active := true, start_time := some 3,
                current_problem_index := 0 } }, none) ∧
    start_contest (start_contest idleEngine 3).1 4 =
      ((start_contest idleEngine 3).1, some "Contest is already active") := by
  have h1 := (c5_start_contest idleEngine 3).2.2 rfl (by decide)
  have h2 := (c5_start_contest (start_contest idleEngine 3).1 4).1 (by decide)
  exact ⟨h1, h2⟩

/-! ### Contest round lemmas -/

theorem run_round_inactive (e : Engine) (o : RoundOracle) (h : e.state.is_active = false) :
    run_contest_round e o = e := by
  unfold run_contest_round get_current_problem
  simp [h]

theorem run_round_step (e : Engine) (o : RoundOracle) (hact : e.state.is_active = true)
    (hlt : e.state.current_problem_index < e.problems.length) :
    (run_contest_round e o).state.current_problem_index = e.state.current_problem_index + 1 ∧
    (run_contest_round e o).problems.length = e.problems.length ∧
    (run_contest_round e o).state.is_active =
      (if e.problems.length ≤ e.state.current_problem_index + 1 then false else true) := by
  have hcur : get_current_problem e =
      some (e.problems.get ⟨e.state.current_problem_index, hlt⟩) := by
    unfold get_current_problem
    rw [if_pos ⟨hact, hlt⟩]
    simp [List.getElem?_eq_getElem hlt]
  unfold run_contest_round
  rw [hcur]
  by_cases hend : e.problems.length ≤ e.state.current_problem_index + 1
  · simp [hend, hact]
  · simp [hend, hact]

theorem rounds_end (os : List RoundOracle) :
    ∀ e : Engine, e.state.is_active = true →
      e.state.current_problem_index + os.length = e.problems.length → os ≠ [] →
      (runRounds e os).state.is_active = false ∧
      (runRounds e os).state.current_problem_index = e.problems.length := by
  induction os with
  | nil => intro e _ _ hne; exact absurd rfl hne
  | cons o os ih =>
    intro e hact hlen _
    have hlt : e.state.current_problem_index < e.problems.length := by
      simp only [List.length_cons] at hlen
      omega
    obtain ⟨h1, h2, h3⟩ := run_round_step e o hact hlt
    have hrr : runRounds e (o :: os) = runRounds (run_contest_round e o) os := rfl
    simp only [List.length_cons] at hlen
    by_cases hos : os = []
    · subst hos
      rw [hrr]
      simp only [List.length_nil] at hlen
      constructor
      · show (run_contest_round e o).state.is_active = false
        rw [h3, if_pos (by omega)]
      · show (run_contest_round e o).state.current_problem_index = e.problems.length
        rw [h1]
        omega
    · have hlen2 : (run_contest_round e o).state.current_problem_index + os.length =
          (run_contest_round e o).problems.length := by
        rw [h1, h2]
        omega
      have hact2 : (run_contest_round e o).state.is_active = true := by
        have hpos : 0 < os.length := List.length_pos.mpr hos
        rw [h3, if_neg (by omega)]
      have hfin := ih (run_contest_round e o) hact2 hlen2 hos
      rw [hrr]
      exact ⟨hfin.1, by rw [hfin.2, h2]⟩

/-- Claim C8: each completed round increments the current problem index by
exactly 1; after `problem_count` rounds of a started contest the state is
Ended (the active flag is false and the index equals the problem count);
and every further `run_contest_round` call is a no-op that changes nothing
(in particular neither the index, the ledger, nor the active flag). -/
theorem c8_round_advancement (e0 e : Engine) (now : Nat) (os : List RoundOracle)
    (hstart : start_contest e0 now = (e, none))
    (hlen : os.length = e.problems.length) :
    (runRounds e os).state.is_active = false ∧
    (runRounds e os).state.current_problem_index = e.problems.length ∧
    (∀ o, run_contest_round (runRounds e os) o = runRounds e os) ∧
    (∀ (e' : Engine) (o : RoundOracle), (get_current_problem e').isSome = true →
      (run_contest_round e' o).state.current_problem_index =
        e'.state.current_problem_index + 1) := by
  have hfacts : e.state.is_active = true ∧ e.state.current_problem_index = 0 ∧
      e.problems ≠ [] := by
    unfold start_contest at hstart
    cases hb : e0.state.is_active with
    | true => simp [hb] at hstart
    | false =>
      by_cases hp : e0.problems.isEmpty = true
      · simp [hb, hp] at hstart
      · simp only [hb, Bool.false_eq_true, if_false, hp, Prod.mk.injEq, and_true] at hstart
        subst hstart
        refine ⟨rfl, rfl, fun hnil => hp ?_⟩
        have h' : e0.problems = [] := hnil
        simp [h']
  obtain ⟨hact, hidx, hne⟩ := hfacts
  have hosne : os ≠ [] := by
    intro h0
    rw [h0] at hlen
    simp at hlen
    exact hne (List.length_eq_zero.mp hlen.symm)
  have hmain := rounds_end os e hact (by omega) hosne
  refine ⟨hmain.1, hmain.2, fun o => run_round_inactive _ o hmain.1, ?_⟩
  intro e' o hsome
  unfold get_current_problem at hsome
  split at hsome
  · rename_i hcond
    exact (run_round_step e' o hcond.1 hcond.2).1
  · simp at hsome

/-- Witness for C8: a one-problem contest with one developer ends after one
round, and a further round call is a no-op. -/
theorem c8_round_advancement_witness :
    (runRounds (start_contest oneDevEngine 7).1 [sampleOracle]).state.is_active = false ∧
    (runRounds (start_contest oneDevEngine 7).1 [sampleOracle]).state.current_problem_index = 1 ∧
    run_contest_round (runRounds (start_contest oneDevEngine 7).1 [sampleOracle]) sampleOracle =
      runRounds (start_contest oneDevEngine 7).1 [sampleOracle] := by
  have h := c8_round_advancement oneDevEngine (start_contest oneDevEngine 7).1 7 [sampleOracle]
    (by decide) (by decide)
  exact ⟨h.1, h.2.1.trans (by decide), h.2.2.1 sampleOracle⟩

/-! ### Evaluator self-payment lemmas -/

theorem fold_adjust_hist {α : Type} (f : α → String) (g : α → Int) (rsn : String) :
    ∀ (l : List α) (bank : Bank), ∃ tail : List Transaction,
      (l.foldl (fun b s => (b.adjust_balance (f s) (g s) rsn).1) bank).transaction_history =
        bank.transaction_history ++ tail ∧
      tail.length = l.length ∧ ∀ t ∈ tail, t.actor ∈ l.map f := by
  intro l
  induction l with
  | nil => intro bank; exact ⟨[], by simp, rfl, by simp⟩
  | cons s ss ih =>
    intro bank
    obtain ⟨tail, ht1, ht2, ht3⟩ := ih ((bank.adjust_balance (f s) (g s) rsn).1)
    refine ⟨⟨f s, g s, bank.get_balance (f s), bank.get_balance (f s) + g s, rsn⟩ :: tail,
      ?_, ?_, ?_⟩
    · rw [List.foldl_cons, ht1]
      show (bank.update_balance (f s) (g s) rsn).transaction_history ++ tail = _
      rw [history_update]
      simp
    · simp [ht2]
    · intro t ht
      rcases List.mem_cons.mp ht with h | h
      · subst h; simp
      · exact List.mem_cons_of_mem _ (ht3 t h)

theorem fold_adjust_balance {α : Type} (f : α → String) (g : α → Int) (rsn : String) :
    ∀ (l : List α) (bank : Bank) (a : String), a ∉ l.map f →
      (l.foldl (fun b s => (b.adjust_balance (f s) (g s) rsn).1) bank).get_balance a =
        bank.get_balance a := by
  intro l
  induction l with
  | nil => intro bank a _; rfl
  | cons s ss ih =>
    intro bank a ha
    simp only [List.map_cons, List.mem_cons, not_or] at ha
    rw [List.foldl_cons, ih _ a ha.2]
    show (bank.update_balance (f s) (g s) rsn).get_balance a = _
    rw [get_balance_update, if_neg ha.1]

theorem mem_insertByBal (q p : String × Int) (l : List (String × Int)) :
    q ∈ insertByBal p l ↔ q = p ∨ q ∈ l := by
  induction l with
  | nil => simp [insertByBal]
  | cons r rs ih =>
    unfold insertByBal
    split
    · simp [List.mem_cons]
    · simp only [List.mem_cons, ih]
      tauto

theorem mem_foldr_insert (l : List (String × Int)) (q : String × Int) (h : q ∈ l) :
    q ∈ l.foldr insertByBal [] := by
  induction l with
  | nil => exact absurd h (List.not_mem_nil q)
  | cons r rs ih =>
    rw [List.foldr_cons, mem_insertByBal]
    rcases List.mem_cons.mp h with h | h
    · exact Or.inl h
    · exact Or.inr (ih h)

theorem mem_fst_setBal (l : List (String × Int)) (a : String) (v : Int) :
    a ∈ (setBal l a v).map Prod.fst := by
  induction l with
  | nil => simp [setBal]
  | cons p rest ih =>
    obtain ⟨k, w⟩ := p
    unfold setBal
    split
    · simp
    · simp only [List.map_cons, List.mem_cons]
      exact Or.inr ih

theorem mem_fst_leaderboard (b : Bank) (a : String) (h : a ∈ b.balances.map Prod.fst) :
    a ∈ (b.get_leaderboard).map Prod.fst := by
  obtain ⟨p, hp, hfst⟩ := List.mem_map.mp h
  exact List.mem_map.mpr ⟨p, mem_foldr_insert _ p hp, hfst⟩

theorem adjust_after_fold {α : Type} (f : α → String) (g : α → Int) (rsn1 rsn2 : String)
    (l : List α) (bank : Bank) (peName : String) (hpe : peName ∉ l.map f) :
    ((((l.foldl (fun b s => (b.adjust_balance (f s) (g s) rsn1).1) bank).adjust_balance
        peName 1000 rsn2).1.transaction_history.drop bank.transaction_history.length).filter
        (fun t => t.actor == peName)) =
      [⟨peName, 1000, bank.get_balance peName, bank.get_balance peName + 1000, rsn2⟩] ∧
    ((l.foldl (fun b s => (b.adjust_balance (f s) (g s) rsn1).1) bank).adjust_balance
        peName 1000 rsn2).1.transaction_history.length =
      bank.transaction_history.length + l.length + 1 ∧
    ((l.foldl (fun b s => (b.adjust_balance (f s) (g s) rsn1).1) bank).adjust_balance
        peName 1000 rsn2).1.get_balance peName = bank.get_balance peName + 1000 := by
  obtain ⟨tail, ht1, ht2, ht3⟩ := fold_adjust_hist f g rsn1 l bank
  have hbal := fold_adjust_balance f g rsn1 l bank peName hpe
  have hh : ((l.foldl (fun b s => (b.adjust_balance (f s) (g s) rsn1).1) bank).adjust_balance
      peName 1000 rsn2).1.transaction_history =
      bank.transaction_history ++
        (tail ++ [⟨peName, 1000, bank.get_balance peName, bank.get_balance peName + 1000, rsn2⟩]) := by
    show ((l.foldl (fun b s => (b.adjust_balance (f s) (g s) rsn1).1) bank).update_balance
      peName 1000 rsn2).transaction_history = _
    rw [history_update, ht1, hbal]
    simp
  have hft : tail.filter (fun t => t.actor == peName) = [] := by
    rw [List.filter_eq_nil_iff]
    intro t ht
    simp only [beq_iff_eq]
    intro hc
    have hm := ht3 t ht
    rw [hc] at hm
    exact hpe hm
  refine ⟨?_, ?_, ?_⟩
  · rw [hh, List.drop_left, List.filter_append, hft]
    simp
  · rw [hh]
    simp [ht2]
    omega
  · show ((l.foldl (fun b s => (b.adjust_balance (f s) (g s) rsn1).1) bank).update_balance
      peName 1000 rsn2).get_balance peName = _
    rw [get_balance_update, if_pos rfl, hbal]

/-- Claim C10: both `evaluate_submissions_simple` and `evaluate_submissions`
append, after the per-developer reward transactions and regardless of the
round's submissions or outcomes, exactly one additional ledger transaction
crediting the evaluator's own account with +1000, so the evaluator's balance
grows by 1000 per evaluated round and the evaluator appears in the
leaderboard alongside the contestants. -/
theorem c10_evaluator_self_payment (peName truth : String) (problem : CodingProblem)
    (bank : Bank) (subs : List (String × List (String × String)))
    (alls : List SubOracle) (evals : List SubEval)
    (h1 : peName ∉ alls.map SubOracle.name) (h2 : peName ∉ evals.map SubEval.name) :
    (((evaluate_submissions_simple peName truth problem bank subs alls).1.transaction_history.drop
        bank.transaction_history.length).filter (fun t => t.actor == peName)) =
      [⟨peName, 1000, bank.get_balance peName, bank.get_balance peName + 1000,
        "Problem " ++ problem.id ++ " evaluation"⟩] ∧
    (evaluate_submissions_simple peName truth problem bank subs alls).1.transaction_history.length =
      bank.transaction_history.length + alls.length + 1 ∧
    (evaluate_submissions_simple peName truth problem bank subs alls).1.get_balance peName =
      bank.get_balance peName + 1000 ∧
    peName ∈ ((evaluate_submissions_simple peName truth problem bank subs
        alls).1.get_leaderboard).map Prod.fst ∧
    (((evaluate_submissions peName truth evals problem bank).transaction_history.drop
        bank.transaction_history.length).filter (fun t => t.actor == peName)) =
      [⟨peName, 1000, bank.get_balance peName, bank.get_balance peName + 1000,
        "Problem " ++ problem.id ++ " evaluation"⟩] ∧
    (evaluate_submissions peName truth evals problem bank).transaction_history.length =
      bank.transaction_history.length + evals.length + 1 ∧
    (evaluate_submissions peName truth evals problem bank).get_balance peName =
      bank.get_balance peName + 1000 := by
  have hs := adjust_after_fold SubOracle.name SubOracle.reward
    ("Problem " ++ problem.id ++ " submission") ("Problem " ++ problem.id ++ " evaluation")
    alls bank peName h1
  have he := adjust_after_fold SubEval.name SubEval.reward
    ("Problem " ++ problem.id ++ " submission") ("Problem " ++ problem.id ++ " evaluation")
    evals bank peName h2
  refine ⟨hs.1, hs.2.1, hs.2.2, ?_, he.1, he.2.1, he.2.2⟩
  apply mem_fst_leaderboard
  exact mem_fst_setBal _ _ _

/-- Witness for C10 at a concrete round. -/
theorem c10_evaluator_self_payment_witness :
    (evaluate_submissions_simple "PrincipleEvaluator" "t" sampleProblem Bank.empty []
        [⟨"Alice", "resp", 100⟩]).1.get_balance "PrincipleEvaluator" =
      Bank.empty.get_balance "PrincipleEvaluator" + 1000 ∧
    "PrincipleEvaluator" ∈ ((evaluate_submissions_simple "PrincipleEvaluator" "t" sampleProblem
        Bank.empty [] [⟨"Alice", "resp", 100⟩]).1.get_leaderboard).map Prod.fst ∧
    (evaluate_submissions "PrincipleEvaluator" "t" [⟨"Alice", "code", 7⟩] sampleProblem
        Bank.empty).get_balance "PrincipleEvaluator" =
      Bank.empty.get_balance "PrincipleEvaluator" + 1000 := by
  have h := c10_evaluator_self_payment "PrincipleEvaluator" "t" sampleProblem Bank.empty []
    [⟨"Alice", "resp", 100⟩] [⟨"Alice", "code", 7⟩] (by decide) (by decide)
  exact ⟨h.2.2.1, h.2.2.2.1, h.2.2.2.2.2.2⟩

/-! ### Reward extraction lemmas -/

theorem clampReward_bounds (r : Int) : -10000 ≤ clampReward r ∧ clampReward r ≤ 10000 := by
  unfold clampReward
  constructor
  · exact le_max_left _ _
  · exact max_le (by norm_num) (min_le_left _ _)

theorem extract_reward_cases (s : List Char) :
    extract_reward_from_response s = 0 ∨
      ∃ r, extract_reward_from_response s = clampReward r := by
  unfold extract_reward_from_response
  split
  · exact Or.inr ⟨_, rfl⟩
  · split
    · exact Or.inr ⟨_, rfl⟩
    · split
      · exact Or.inr ⟨_, rfl⟩
      · split
        · exact Or.inr ⟨_, rfl⟩
        · split
          · exact Or.inr ⟨_, rfl⟩
          · split
            · exact Or.inl rfl
            · exact Or.inr ⟨_, rfl⟩

theorem splitNl_ne_nil (s : List Char) : splitNl s ≠ [] := by
  cases s with
  | nil => simp [splitNl]
  | cons c cs =>
    unfold splitNl
    split
    · simp
    · split <;> simp

theorem splitNl_sub (s : List Char) : ∀ l ∈ splitNl s, ∀ c ∈ l, c ∈ s := by
  induction s with
  | nil =>
    intro l hl c hc
    simp [splitNl] at hl
    subst hl
    exact absurd hc (List.not_mem_nil c)
  | cons a as ih =>
    intro l hl c hc
    by_cases ha : a = '\n'
    · subst ha
      simp only [splitNl, beq_self_eq_true, if_true] at hl
      rcases List.mem_cons.mp hl with h | h
      · subst h
        exact absurd hc (List.not_mem_nil c)
      · exact List.mem_cons_of_mem _ (ih l h c hc)
    · have ha' : (a == '\n') = false := by simp [ha]
      simp only [splitNl, ha', Bool.false_eq_true, if_false] at hl
      cases hsp : splitNl as with
      | nil => exact absurd hsp (splitNl_ne_nil as)
      | cons l0 ls =>
        rw [hsp] at hl
        rcases List.mem_cons.mp hl with h | h
        · subst h
          rcases List.mem_cons.mp hc with h2 | h2
          · subst h2
            exact List.mem_cons_self _ _
          · refine List.mem_cons_of_mem _ (ih l0 ?_ c h2)
            rw [hsp]
            exact List.mem_cons_self _ _
        · refine List.mem_cons_of_mem _ (ih l ?_ c hc)
          rw [hsp]
          exact List.mem_cons_of_mem _ h

theorem getLastD_mem_of_ne_nil (l : List (List Char)) (h : l ≠ []) : l.getLastD [] ∈ l := by
  rw [List.getLastD_eq_getLast?, List.getLast?_eq_getLast l h]
  simp only [Option.getD_some]
  exact List.getLast_mem h

theorem parseSignedNumR_none (t : List Char) (h : ∀ c ∈ t, c.isDigit = false) :
    parseSignedNumR t = none := by
  unfold parseSignedNumR
  split
  · rename_i r
    cases r with
    | nil => simp
    | cons d ds =>
      have hd := h d (List.mem_cons_of_mem _ (List.mem_cons_self d ds))
      simp [hd]
  · cases t with
    | nil => simp
    | cons d ds =>
      have hd := h d (List.mem_cons_self d ds)
      simp [hd]

theorem parseWsDollarNumR_none (t : List Char) (h : ∀ c ∈ t, c.isDigit = false) :
    parseWsDollarNumR t = none := by
  simp only [parseWsDollarNumR]
  apply parseSignedNumR_none
  intro c hc
  apply h
  split at hc
  · rename_i r heq
    have hr : c ∈ r := (List.dropWhile_sublist isSp).subset hc
    have : c ∈ t.dropWhile isSp := by
      rw [heq]
      exact List.mem_cons_of_mem _ hr
    exact (List.dropWhile_sublist isSp).subset this
  · exact (List.dropWhile_sublist isSp).subset hc

theorem findReward1_none (s : List Char) (h : ∀ c ∈ s, c.isDigit = false) :
    findReward1 s = none := by
  induction s with
  | nil => rfl
  | cons c cs ih =>
    have hcs : ∀ x ∈ cs, x.isDigit = false := fun x hx => h x (List.mem_cons_of_mem _ hx)
    unfold findReward1
    split
    · rw [parseWsDollarNumR_none _ fun x hx => h x (List.drop_subset 7 _ hx)]
      exact ih hcs
    · exact ih hcs

theorem findReward2_none (s : List Char) (h : ∀ c ∈ s, c.isDigit = false) :
    findReward2 s = none := by
  induction s with
  | nil => rfl
  | cons c cs ih =>
    have hcs : ∀ x ∈ cs, x.isDigit = false := fun x hx => h x (List.mem_cons_of_mem _ hx)
    unfold findReward2
    split
    · split
      · rename_i r heq
        have hr : (r.headD 'x').isDigit = false := by
          cases r with
          | nil => simp
          | cons d ds =>
            apply h d
            have : d ∈ ((c :: cs).drop 7).dropWhile isSp := by
              rw [heq]
              exact List.mem_cons_of_mem _ (List.mem_cons_of_mem _ (List.mem_cons_self d ds))
            exact List.drop_subset 7 _ ((List.dropWhile_sublist isSp).subset this)
        rw [hr]
        simp only [Bool.false_eq_true, if_false]
        exact ih hcs
      · exact ih hcs
    · exact ih hcs

theorem headD_not_digit (l : List Char) (h : ∀ x ∈ l, x.isDigit = false) :
    (l.headD 'x').isDigit = false := by
  cases l with
  | nil => decide
  | cons d ds => exact h d (List.mem_cons_self d ds)

theorem tail_forall {l : List Char} (h : ∀ x ∈ l, x.isDigit = false) :
    ∀ x ∈ l.tail, x.isDigit = false :=
  fun x hx => h x ((List.tail_sublist l).subset hx)

theorem dollarMatches_none : ∀ (fuel : Nat) (s : List Char),
    (∀ c ∈ s, c.isDigit = false) → dollarMatches fuel s = [] := by
  intro fuel
  induction fuel with
  | zero => intro s _; rfl
  | succ fuel ih =>
    intro s h
    cases s with
    | nil => rfl
    | cons c cs =>
      have hcs : ∀ x ∈ cs, x.isDigit = false := fun x hx => h x (List.mem_cons_of_mem _ hx)
      have hd1 : ((cs.tail).headD 'x').isDigit = false := headD_not_digit _ (tail_forall hcs)
      have hd2 : (cs.headD 'x').isDigit = false := headD_not_digit _ hcs
      simp only [List.headD_eq_head?_getD, List.head?_tail] at hd1 hd2
      show dollarMatches (fuel + 1) (c :: cs) = []
      simp [dollarMatches, hd1, hd2, ih cs hcs]

theorem tryKw_none (s : List Char) (h : ∀ c ∈ s, c.isDigit = false) : tryKw s = none := by
  unfold tryKw
  split_ifs <;> first
    | rfl
    | exact parseWsDollarNumR_none _ fun x hx => h x (List.drop_subset _ _ hx)

theorem kwScan_none : ∀ (fuel : Nat) (s : List Char),
    (∀ c ∈ s, c.isDigit = false) → kwScan fuel s = [] := by
  intro fuel
  induction fuel with
  | zero => intro s _; rfl
  | succ fuel ih =>
    intro s h
    cases s with
    | nil => rfl
    | cons c cs =>
      have hcs : ∀ x ∈ cs, x.isDigit = false := fun x hx => h x (List.mem_cons_of_mem _ hx)
      show kwScan (fuel + 1) (c :: cs) = []
      unfold kwScan
      rw [tryKw_none _ h]
      exact ih cs hcs

theorem numMatches_none : ∀ (fuel : Nat) (s : List Char),
    (∀ c ∈ s, c.isDigit = false) → numMatches fuel s = [] := by
  intro fuel
  induction fuel with
  | zero => intro s _; rfl
  | succ fuel ih =>
    intro s h
    cases s with
    | nil => rfl
    | cons c cs =>
      have hcs : ∀ x ∈ cs, x.isDigit = false := fun x hx => h x (List.mem_cons_of_mem _ hx)
      have hd2 : (cs.headD 'x').isDigit = false := headD_not_digit _ hcs
      simp only [List.headD_eq_head?_getD] at hd2
      have hc : c.isDigit = false := h c (List.mem_cons_self c cs)
      show numMatches (fuel + 1) (c :: cs) = []
      simp [numMatches, hd2, hc, ih cs hcs]

/-- Claim C9: for every response string, the extracted reward lies in the
closed interval from -10000 to 10000, and a response containing no digit at
all yields exactly 0. -/
theorem c9_reward_bounds (response : String) :
    -10000 ≤ extract_reward_from_response response.data ∧
    extract_reward_from_response response.data ≤ 10000 ∧
    ((∀ c ∈ response.data, c.isDigit = false) →
      extract_reward_from_response response.data = 0) := by
  refine ⟨?_, ?_, ?_⟩
  · rcases extract_reward_cases response.data with h | ⟨r, h⟩
    · rw [h]; decide
    · rw [h]; exact (clampReward_bounds r).1
  · rcases extract_reward_cases response.data with h | ⟨r, h⟩
    · rw [h]; decide
    · rw [h]; exact (clampReward_bounds r).2
  · intro h
    have hlast : ∀ c ∈ (splitNl response.data).getLastD [], c.isDigit = false := by
      intro c hc
      exact h c (splitNl_sub response.data _
        (getLastD_mem_of_ne_nil _ (splitNl_ne_nil response.data)) c hc)
    unfold extract_reward_from_response
    rw [findReward1_none _ h, findReward2_none _ h, dollarMatches_none _ _ h,
      kwScan_none _ _ h, numMatches_none _ _ hlast, numMatches_none _ _ h]
    rfl

/-- Witness for C9 at a concrete digit-free response. -/
theorem c9_reward_bounds_witness :
    -10000 ≤ extract_reward_from_response "no digits anywhere".data ∧
    extract_reward_from_response "no digits anywhere".data ≤ 10000 ∧
    extract_reward_from_response "no digits anywhere".data = 0 := by
  have h := c9_reward_bounds "no digits anywhere"
  exact ⟨h.1, h.2.1, h.2.2 (by decide)⟩

/-! ### Substring lemmas for the extraction development -/

theorem isPre_iff (n h : List Char) : isPre n h = true ↔ n <+: h := by
  induction n generalizing h with
  | nil => simp [isPre]
  | cons a as ih =>
    cases h with
    | nil => simp [isPre]
    | cons b bs =>
      simp only [isPre, Bool.and_eq_true, beq_iff_eq, ih, List.cons_prefix_cons]

theorem hasSub_nil_right (n : List Char) : hasSub n [] = n.isEmpty := by
  cases n <;> rfl

theorem hasSub_cons (n : List Char) (c : Char) (cs : List Char) :
    hasSub n (c :: cs) = (isPre n (c :: cs) || hasSub n cs) := by
  by_cases h : isPre n (c :: cs) = true
  · simp [hasSub, findSub, h]
  · cases hf : findSub n cs <;> simp [hasSub, findSub, h, hf]

theorem hasSub_iff (n h : List Char) : hasSub n h = true ↔ n <:+: h := by
  induction h with
  | nil =>
    rw [hasSub_nil_right]
    simp [List.isEmpty_iff, List.infix_nil]
  | cons c cs ih =>
    rw [hasSub_cons]
    simp only [Bool.or_eq_true, isPre_iff, ih]
    exact (List.infix_cons_iff).symm

theorem isPre_append_self (n r : List Char) : isPre n (n ++ r) = true := by
  induction n with
  | nil => rfl
  | cons a as ih => simp [isPre, ih]

theorem hasSub_of_isPre (n h : List Char) (hp : isPre n h = true) : hasSub n h = true :=
  (hasSub_iff n h).mpr ((isPre_iff n h).mp hp).isInfix

theorem isPre_append_sep (sep : Char) (n : List Char) :
    sep ∉ n → ∀ u v : List Char, isPre n (u ++ sep :: v) = isPre n u := by
  induction n with
  | nil => intro _ u v; rfl
  | cons a as ih =>
    intro hs u v
    have hs' : sep ∉ as := fun h => hs (List.mem_cons_of_mem _ h)
    have ha : (a == sep) = false := by
      refine beq_eq_false_iff_ne.mpr fun h => hs ?_
      rw [h]
      exact List.mem_cons_self _ _
    cases u with
    | nil => simp [isPre, ha]
    | cons b bs =>
      simp only [List.cons_append, isPre, List.append_eq]
      rw [ih hs' bs v]

theorem hasSub_append_sep (sep : Char) (n : List Char) (hs : sep ∉ n) (a b : List Char) :
    hasSub n (a ++ sep :: b) = (hasSub n a || hasSub n b) := by
  induction a with
  | nil =>
    rw [List.nil_append, hasSub_cons, hasSub_nil_right]
    cases n with
    | nil => simp [isPre]
    | cons m ms =>
      have hm : (m == sep) = false := by
        refine beq_eq_false_iff_ne.mpr fun h => hs ?_
        rw [← h]
        exact List.mem_cons_self _ _
      simp [isPre, hm]
  | cons y ys ih =>
    rw [List.cons_append, hasSub_cons, ← List.cons_append,
      isPre_append_sep sep n hs (y :: ys) b, ih, hasSub_cons]
    rw [Bool.or_assoc]

theorem joinNl_cons (l : List Char) (ls : List (List Char)) (h : ls ≠ []) :
    joinNl (l :: ls) = l ++ '\n' :: joinNl ls := by
  cases ls with
  | nil => exact absurd rfl h
  | cons l2 ls2 => rfl

theorem hasSub_join (n : List Char) (hn : n ≠ []) (hnl : '\n' ∉ n) (L : List (List Char)) :
    hasSub n (joinNl L) = true ↔ ∃ l ∈ L, hasSub n l = true := by
  induction L with
  | nil =>
    rw [show joinNl [] = [] from rfl, hasSub_nil_right]
    cases n with
    | nil => exact absurd rfl hn
    | cons m ms => simp
  | cons l ls ih =>
    cases ls with
    | nil => simp [joinNl]
    | cons l2 ls2 =>
      rw [joinNl_cons l (l2 :: ls2) (by simp),
        hasSub_append_sep '\n' n hnl l (joinNl (l2 :: ls2))]
      simp only [Bool.or_eq_true, ih]
      constructor
      · rintro (h | ⟨m, hm, hsm⟩)
        · exact ⟨l, List.mem_cons_self _ _, h⟩
        · exact ⟨m, List.mem_cons_of_mem _ hm, hsm⟩
      · rintro ⟨m, hm, hsm⟩
        rcases List.mem_cons.mp hm with rfl | hm2
        · exact Or.inl hsm
        · exact Or.inr ⟨m, hm2, hsm⟩

theorem hasSub_head_mem (c : Char) (n h : List Char) (hs : hasSub (c :: n) h = true) :
    c ∈ h :=
  ((hasSub_iff _ _).mp hs).subset (List.mem_cons_self c n)

theorem hasSub_cons_append (c : Char) (n a b : List Char) (ha : c ∉ a) :
    hasSub (c :: n) (a ++ b) = hasSub (c :: n) b := by
  induction a with
  | nil => rfl
  | cons y ys ih =>
    have hy : (c == y) = false := by
      refine beq_eq_false_iff_ne.mpr fun h => ha ?_
      rw [h]
      exact List.mem_cons_self _ _
    have ha' : c ∉ ys := fun h => ha (List.mem_cons_of_mem _ h)
    rw [List.cons_append, hasSub_cons]
    simp [isPre, hy, ih ha']

theorem trimL_inside (l : List Char) : trimL l <:+: l := by
  have hd : l.dropWhile isSp <:+ l := List.dropWhile_suffix isSp
  have hu : (l.dropWhile isSp).reverse.dropWhile isSp <:+ (l.dropWhile isSp).reverse :=
    List.dropWhile_suffix isSp
  have hp : trimL l <+: l.dropWhile isSp := by
    have h2 := (List.reverse_prefix).mpr hu
    rw [List.reverse_reverse] at h2
    exact h2
  exact hp.isInfix.trans hd.isInfix

theorem hasSub_trim (m l : List Char) (h : hasSub m (trimL l) = true) : hasSub m l = true :=
  (hasSub_iff _ _).mpr (((hasSub_iff _ _).mp h).trans (trimL_inside l))

/-! ### Split and join lemmas -/

theorem joinNl_splitNl (s : List Char) : joinNl (splitNl s) = s := by
  induction s with
  | nil => rfl
  | cons c cs ih =>
    by_cases hc : c = '\n'
    · subst hc
      rw [show splitNl ('\n' :: cs) = [] :: splitNl cs from by simp [splitNl],
        joinNl_cons [] _ (splitNl_ne_nil cs)]
      simp [ih]
    · have hc' : (c == '\n') = false := by simp [hc]
      cases hsp : splitNl cs with
      | nil => exact absurd hsp (splitNl_ne_nil cs)
      | cons l ls =>
        rw [show splitNl (c :: cs) = (c :: l) :: ls from by simp [splitNl, hc', hsp]]
        rw [hsp] at ih
        cases ls with
        | nil =>
          have hl : l = cs := ih
          simp [joinNl, hl]
        | cons l2 ls2 =>
          rw [joinNl_cons _ _ (by simp)]
          rw [joinNl_cons _ _ (by simp)] at ih
          rw [List.cons_append, ih]

theorem splitNl_no_nl (s : List Char) : ∀ l ∈ splitNl s, '\n' ∉ l := by
  induction s with
  | nil =>
    intro l hl
    simp [splitNl] at hl
    subst hl
    exact List.not_mem_nil '\n'
  | cons c cs ih =>
    intro l hl
    by_cases hc : c = '\n'
    · subst hc
      simp only [splitNl, beq_self_eq_true, if_true] at hl
      rcases List.mem_cons.mp hl with rfl | h
      · exact List.not_mem_nil '\n'
      · exact ih l h
    · have hc' : (c == '\n') = false := by simp [hc]
      cases hsp : splitNl cs with
      | nil => exact absurd hsp (splitNl_ne_nil cs)
      | cons l0 ls =>
        rw [show splitNl (c :: cs) = (c :: l0) :: ls from by simp [splitNl, hc', hsp]] at hl
        rcases List.mem_cons.mp hl with rfl | h
        · intro hmem
          rcases List.mem_cons.mp hmem with h2 | h2
          · exact hc h2.symm
          · exact ih l0 (by rw [hsp]; exact List.mem_cons_self _ _) h2
        · exact ih l (by rw [hsp]; exact List.mem_cons_of_mem _ h)

theorem splitNl_single (l : List Char) (h : '\n' ∉ l) : splitNl l = [l] := by
  induction l with
  | nil => rfl
  | cons c cs ih =>
    have hc : (c == '\n') = false := by
      refine beq_eq_false_iff_ne.mpr fun hc => h ?_
      rw [hc]
      exact List.mem_cons_self _ _
    have h' : '\n' ∉ cs := fun h2 => h (List.mem_cons_of_mem _ h2)
    simp [splitNl, hc, ih h']

theorem splitNl_append_nl (l : List Char) (h : '\n' ∉ l) (t : List Char) :
    splitNl (l ++ '\n' :: t) = l :: splitNl t := by
  induction l with
  | nil => simp [splitNl]
  | cons c cs ih =>
    have hc : (c == '\n') = false := by
      refine beq_eq_false_iff_ne.mpr fun hc => h ?_
      rw [hc]
      exact List.mem_cons_self _ _
    have h' : '\n' ∉ cs := fun h2 => h (List.mem_cons_of_mem _ h2)
    rw [List.cons_append]
    simp [splitNl, hc, ih h']

theorem splitNl_joinNl (L : List (List Char)) (hne : L ≠ []) (h : ∀ l ∈ L, '\n' ∉ l) :
    splitNl (joinNl L) = L := by
  induction L with
  | nil => exact absurd rfl hne
  | cons l ls ih =>
    cases ls with
    | nil => exact splitNl_single l (h l (List.mem_cons_self _ _))
    | cons l2 ls2 =>
      rw [joinNl_cons _ _ (by simp),
        splitNl_append_nl l (h l (List.mem_cons_self _ _)),
        ih (by simp) fun m hm => h m (List.mem_cons_of_mem _ hm)]

/-! ### Line-scan lemmas -/

theorem collectFn_sub (n : List Char) :
    ∀ (L : List (List Char)) (b : Bool) (l : List Char), l ∈ collectFn n L b → l ∈ L := by
  intro L
  induction L with
  | nil => intro b l hl; exact absurd hl (List.not_mem_nil l)
  | cons l0 ls ih =>
    intro b l hl
    unfold collectFn at hl
    split at hl
    · rcases List.mem_cons.mp hl with rfl | h
      · exact List.mem_cons_self _ _
      · exact List.mem_cons_of_mem _ (ih true l h)
    · split at hl
      · split at hl
        · rcases List.mem_cons.mp hl with rfl | h
          · exact List.mem_cons_self _ _
          · exact List.mem_cons_of_mem _ (ih true l h)
        · exact absurd hl (List.not_mem_nil l)
      · exact List.mem_cons_of_mem _ (ih false l hl)

theorem collectFn_inv (n : List Char) :
    ∀ (L : List (List Char)) (b : Bool) (l : List Char), l ∈ collectFn n L b →
      hasSub n l = true ∨ isCont l = true := by
  intro L
  induction L with
  | nil => intro b l hl; exact absurd hl (List.not_mem_nil l)
  | cons l0 ls ih =>
    intro b l hl
    unfold collectFn at hl
    split at hl
    · rename_i h0
      rcases List.mem_cons.mp hl with rfl | h
      · exact Or.inl h0
      · exact ih true l h
    · split at hl
      · split at hl
        · rename_i hcont
          rcases List.mem_cons.mp hl with rfl | h
          · exact Or.inr hcont
          · exact ih true l h
        · exact absurd hl (List.not_mem_nil l)
      · exact ih false l hl

theorem collectFn_head (n : List Char) :
    ∀ L : List (List Char), collectFn n L false = [] ∨
      ∃ h0 t0, collectFn n L false = h0 :: t0 ∧ hasSub n h0 = true := by
  intro L
  induction L with
  | nil => exact Or.inl rfl
  | cons l0 ls ih =>
    by_cases h0 : hasSub n l0 = true
    · exact Or.inr ⟨l0, collectFn n ls true, by simp [collectFn, h0], h0⟩
    · have : collectFn n (l0 :: ls) false = collectFn n ls false := by
        simp [collectFn, h0]
      rw [this]
      exact ih

theorem collectFn_all_true (n : List Char) :
    ∀ t : List (List Char), (∀ l ∈ t, hasSub n l = true ∨ isCont l = true) →
      collectFn n t true = t := by
  intro t
  induction t with
  | nil => intro _; rfl
  | cons l0 ls ih =>
    intro h
    have hls := ih fun l hl => h l (List.mem_cons_of_mem _ hl)
    by_cases h0 : hasSub n l0 = true
    · simp [collectFn, h0, hls]
    · have hcont : isCont l0 = true := by
        rcases h l0 (List.mem_cons_self _ _) with hc | hc
        · exact absurd hc h0
        · exact hc
      simp [collectFn, h0, hcont, hls]

theorem collectFn_fix (n : List Char) (h0 : List Char) (t0 : List (List Char))
    (hh0 : hasSub n h0 = true)
    (hrest : ∀ l ∈ t0, hasSub n l = true ∨ isCont l = true) :
    collectFn n (h0 :: t0) false = h0 :: t0 := by
  simp [collectFn, hh0, collectFn_all_true n t0 hrest]

/-! ### Function-name lemmas -/

theorem matchDefAt_word (l n : List Char) (h : matchDefAt l = some n) :
    ∀ c ∈ n, isWord c = true := by
  unfold matchDefAt at h
  split at h
  · split_ifs at h
    injection h with h'
    subst h'
    intro c hc
    exact List.mem_takeWhile_imp hc
  · exact absurd h (by simp)

theorem findDefName_word (stub n : List Char) (h : findDefName stub = some n) :
    ∀ c ∈ n, isWord c = true := by
  induction stub with
  | nil => exact absurd h (by simp [findDefName])
  | cons c cs ih =>
    unfold findDefName at h
    split at h
    · rename_i m heq
      injection h with h'
      subst h'
      exact matchDefAt_word _ _ heq
    · exact ih h

theorem functionNameOf_word (stub : List Char) :
    ∀ c ∈ functionNameOf stub, isWord c = true := by
  unfold functionNameOf
  cases hf : findDefName stub with
  | none =>
    simp only [Option.getD_none]
    decide
  | some n =>
    simp only [Option.getD_some]
    exact findDefName_word stub n hf

/-! ### Fence lemmas -/

theorem pythonBlock_none (s : List Char) (h : hasSub fenceMark s = false) :
    pythonBlock s = none := by
  unfold pythonBlock
  cases hf : findSub fenceOpenStr s with
  | none => rfl
  | some i =>
    exfalso
    have h1 : hasSub fenceOpenStr s = true := by
      unfold hasSub
      rw [hf]
      rfl
    have h2 : fenceOpenStr <:+: s := (hasSub_iff _ _).mp h1
    have h3 : fenceMark <+: fenceOpenStr := (isPre_iff _ _).mp (by decide)
    have h4 := (hasSub_iff fenceMark s).mpr (h3.isInfix.trans h2)
    rw [h] at h4
    exact Bool.false_ne_true h4

theorem hasSub_of_line (m : List Char) (hm : m ≠ []) (hnl : '\n' ∉ m) (x l : List Char)
    (hl : l ∈ splitNl x) (h : hasSub m l = true) : hasSub m x = true := by
  have h2 := (hasSub_join m hm hnl (splitNl x)).mpr ⟨l, hl, h⟩
  rwa [joinNl_splitNl] at h2

theorem fenceMark_cons : fenceMark = '`' :: "``".data := by decide

theorem hdr_no_nl (fname : List Char) (hw : ∀ c ∈ fname, isWord c = true) :
    '\n' ∉ defNeedle fname ++ "():".data := by
  intro hmem
  rcases List.mem_append.mp hmem with h | h
  · simp only [defNeedle, List.mem_cons] at h
    rcases h with h | h | h | h | h
    · exact absurd h (by decide)
    · exact absurd h (by decide)
    · exact absurd h (by decide)
    · exact absurd h (by decide)
    · exact absurd (hw _ h) (by decide)
  · exact absurd h (by decide)

theorem hdr_no_tick (fname : List Char) (hw : ∀ c ∈ fname, isWord c = true) :
    '`' ∉ defNeedle fname ++ "():".data := by
  intro hmem
  rcases List.mem_append.mp hmem with h | h
  · simp only [defNeedle, List.mem_cons] at h
    rcases h with h | h | h | h | h
    · exact absurd h (by decide)
    · exact absurd h (by decide)
    · exact absurd h (by decide)
    · exact absurd h (by decide)
    · exact absurd (hw _ h) (by decide)
  · exact absurd h (by decide)

theorem fence_hdr_false (fname : List Char) (hw : ∀ c ∈ fname, isWord c = true) :
    hasSub fenceMark (defNeedle fname ++ "():".data) = false := by
  cases hb : hasSub fenceMark (defNeedle fname ++ "():".data) with
  | false => rfl
  | true =>
    rw [fenceMark_cons] at hb
    exact absurd (hasSub_head_mem _ _ _ hb) (hdr_no_tick fname hw)

theorem needle_hdr (fname : List Char) :
    hasSub (defNeedle fname) (defNeedle fname ++ "():".data) = true :=
  hasSub_of_isPre _ _ (isPre_append_self _ _)

theorem isCont_indent4 (z : List Char) : isCont (indent4 z) = true := by
  simp [isCont, indent4]

theorem no_nl_indent4 (z : List Char) (h : '\n' ∉ z) : '\n' ∉ indent4 z := by
  intro hm
  simp only [indent4, List.mem_cons] at hm
  rcases hm with h1 | h1 | h1 | h1 | h1
  · exact absurd h1 (by decide)
  · exact absurd h1 (by decide)
  · exact absurd h1 (by decide)
  · exact absurd h1 (by decide)
  · exact h h1

theorem fence_indent4 (z : List Char) :
    hasSub fenceMark (indent4 z) = hasSub fenceMark z := by
  have h1 : indent4 z = [' ', ' ', ' ', ' '] ++ z := rfl
  rw [h1, fenceMark_cons]
  exact hasSub_cons_append _ _ _ _ (by decide)

theorem codeLines_mem (lines : List (List Char)) (t : List Char) (h : t ∈ codeLines lines) :
    ∃ l ∈ lines, t = trimL l := by
  unfold codeLines at h
  have h2 := List.mem_of_mem_filter h
  obtain ⟨l, hl, heq⟩ := List.mem_map.mp h2
  exact ⟨l, hl, heq.symm⟩

theorem indent4_joinNl (m : List Char) (ms : List (List Char)) :
    indent4 (joinNl (m :: ms)) = joinNl (indent4 m :: ms) := by
  cases ms with
  | nil => rfl
  | cons m2 ms2 =>
    rw [joinNl_cons m (m2 :: ms2) (by simp), joinNl_cons (indent4 m) (m2 :: ms2) (by simp)]
    rfl

/-! ### The extraction fixpoint -/

theorem extract_fixpoint (stub : List Char) (h0 : List Char) (t0 : List (List Char))
    (hh0 : hasSub (defNeedle (functionNameOf stub)) h0 = true)
    (hrest : ∀ l ∈ t0, hasSub (defNeedle (functionNameOf stub)) l = true ∨ isCont l = true)
    (hnl : ∀ l ∈ h0 :: t0, '\n' ∉ l)
    (hfence : ∀ l ∈ h0 :: t0, hasSub fenceMark l = false) :
    extract_function_code stub (joinNl (h0 :: t0)) = joinNl (h0 :: t0) := by
  have hfy : hasSub fenceMark (joinNl (h0 :: t0)) = false := by
    cases hb : hasSub fenceMark (joinNl (h0 :: t0)) with
    | false => rfl
    | true =>
      obtain ⟨l, hl, hs⟩ := (hasSub_join fenceMark (by decide) (by decide) _).mp hb
      rw [hfence l hl] at hs
      exact absurd hs (by simp)
  unfold extract_function_code
  rw [pythonBlock_none _ hfy]
  unfold extractBody
  rw [splitNl_joinNl _ (by simp) hnl,
    collectFn_fix (defNeedle (functionNameOf stub)) h0 t0 hh0 hrest]
  simp

/-- Counterexample to claim C2 as stated: extraction is not idempotent.  A
fenced Python block whose content has code before the function definition is
returned whole by the first extraction, but re-extracting that result takes
the line-scan path, which drops everything before the def line. -/
theorem c2_extract_counterexample :
    extract_function_code "def solve():".data
        (extract_function_code "def solve():".data
          "```python\nx = 1\ndef solve():\n    return x\n```".data) ≠
      extract_function_code "def solve():".data
        "```python\nx = 1\ndef solve():\n    return x\n```".data := by
  decide

/-- Claim C2, amended: extraction is idempotent for every raw submission
text that contains no markdown code-fence delimiter (three backticks); on
such texts re-extracting an already-extracted submission yields the same
result, for every stub code.  (The counterexample shows idempotence can
fail when a fenced block is present.) -/
theorem c2_extract_idempotent (stub x : String)
    (hx : hasSub fenceMark x.data = false) :
    extract_function_code stub.data (extract_function_code stub.data x.data) =
      extract_function_code stub.data x.data := by
  have hword := functionNameOf_word stub.data
  have hline_nl := splitNl_no_nl x.data
  have hline_fence : ∀ l ∈ splitNl x.data, hasSub fenceMark l = false := by
    intro l hl
    cases hb : hasSub fenceMark l with
    | false => rfl
    | true =>
      have h2 := hasSub_of_line fenceMark (by decide) (by decide) x.data l hl hb
      rw [hx] at h2
      exact absurd h2 (by simp)
  have hcls_facts : ∀ t ∈ codeLines (splitNl x.data),
      '\n' ∉ t ∧ hasSub fenceMark t = false := by
    intro t ht
    obtain ⟨l, hl, rfl⟩ := codeLines_mem _ t ht
    constructor
    · intro hm
      exact hline_nl l hl ((trimL_inside l).subset hm)
    · cases hb : hasSub fenceMark (trimL l) with
      | false => rfl
      | true =>
        have h2 := hasSub_trim _ _ hb
        rw [hline_fence l hl] at h2
        exact absurd h2 (by simp)
  have hex : extract_function_code stub.data x.data =
      extractBody (functionNameOf stub.data) x.data := by
    unfold extract_function_code
    rw [pythonBlock_none _ hx]
  rw [hex]
  rcases collectFn_head (defNeedle (functionNameOf stub.data)) (splitNl x.data)
    with hcol | ⟨h0, t0, hcol, hh0⟩
  · cases hcls : codeLines (splitNl x.data) with
    | nil =>
      have hy : extractBody (functionNameOf stub.data) x.data =
          emptyFn (functionNameOf stub.data) := by
        unfold extractBody
        rw [hcol, hcls]
        rfl
      rw [hy]
      have hform : emptyFn (functionNameOf stub.data) =
          joinNl [defNeedle (functionNameOf stub.data) ++ "():".data,
            indent4 "pass".data] := rfl
      rw [hform]
      apply extract_fixpoint
      · exact needle_hdr _
      · intro l hl
        rcases List.mem_cons.mp hl with rfl | hl2
        · exact Or.inr (isCont_indent4 _)
        · exact absurd hl2 (List.not_mem_nil l)
      · intro l hl
        rcases List.mem_cons.mp hl with rfl | hl2
        · exact hdr_no_nl _ hword
        · rcases List.mem_cons.mp hl2 with rfl | hl3
          · exact by decide
          · exact absurd hl3 (List.not_mem_nil l)
      · intro l hl
        rcases List.mem_cons.mp hl with rfl | hl2
        · exact fence_hdr_false _ hword
        · rcases List.mem_cons.mp hl2 with rfl | hl3
          · exact by decide
          · exact absurd hl3 (List.not_mem_nil l)
    | cons c0 cr =>
      have hy : extractBody (functionNameOf stub.data) x.data =
          wrapCode (functionNameOf stub.data) (c0 :: cr) := by
        unfold extractBody
        rw [hcol, hcls]
        rfl
      rw [hy]
      have hform : wrapCode (functionNameOf stub.data) (c0 :: cr) =
          joinNl ((defNeedle (functionNameOf stub.data) ++ "():".data) ::
            indent4 (indent4 c0) :: cr.map indent4) := by
        unfold wrapCode
        rw [List.map_cons, indent4_joinNl,
          joinNl_cons (defNeedle (functionNameOf stub.data) ++ "():".data) _ (by simp)]
      have hc0 := hcls_facts c0 (by rw [hcls]; exact List.mem_cons_self _ _)
      have hcr : ∀ t ∈ cr, '\n' ∉ t ∧ hasSub fenceMark t = false := by
        intro t ht
        exact hcls_facts t (by rw [hcls]; exact List.mem_cons_of_mem _ ht)
      rw [hform]
      apply extract_fixpoint
      · exact needle_hdr _
      · intro l hl
        rcases List.mem_cons.mp hl with rfl | hl2
        · exact Or.inr (isCont_indent4 _)
        · obtain ⟨t, _, rfl⟩ := List.mem_map.mp hl2
          exact Or.inr (isCont_indent4 _)
      · intro l hl
        rcases List.mem_cons.mp hl with rfl | hl2
        · exact hdr_no_nl _ hword
        · rcases List.mem_cons.mp hl2 with rfl | hl3
          · exact no_nl_indent4 _ (no_nl_indent4 _ hc0.1)
          · obtain ⟨t, ht, rfl⟩ := List.mem_map.mp hl3
            exact no_nl_indent4 _ (hcr t ht).1
      · intro l hl
        rcases List.mem_cons.mp hl with rfl | hl2
        · exact fence_hdr_false _ hword
        · rcases List.mem_cons.mp hl2 with rfl | hl3
          · rw [fence_indent4, fence_indent4]
            exact hc0.2
          · obtain ⟨t, ht, rfl⟩ := List.mem_map.mp hl3
            rw [fence_indent4]
            exact (hcr t ht).2
  · have hy : extractBody (functionNameOf stub.data) x.data = joinNl (h0 :: t0) := by
      unfold extractBody
      rw [hcol]
      rfl
    rw [hy]
    apply extract_fixpoint
    · exact hh0
    · intro l hl
      exact collectFn_inv _ _ _ l (by rw [hcol]; exact List.mem_cons_of_mem _ hl)
    · intro l hl
      exact hline_nl l (collectFn_sub _ _ _ l (by rw [hcol]; exact hl))
    · intro l hl
      exact hline_fence l (collectFn_sub _ _ _ l (by rw [hcol]; exact hl))

/-- Witness for the amended C2 at a concrete fence-free response. -/
theorem c2_extract_idempotent_witness :
    hasSub fenceMark "intro text\ndef solve():\n    return 1\nbye".data = false ∧
    extract_function_code "def solve():".data
        (extract_function_code "def solve():".data
          "intro text\ndef solve():\n    return 1\nbye".data) =
      extract_function_code "def solve():".data
        "intro text\ndef solve():\n    return 1\nbye".data := by
  exact ⟨by decide, c2_extract_idempotent "def solve():"
    "intro text\ndef solve():\n    return 1\nbye" (by decide)⟩
